import Mathlib

/-!
Verification of the streaming-response assembler of the hex-smart-agent
frontend (`src/frontend/src/App.js` and `src/frontend/src/utils/refineLLMText.js`).

The JavaScript source is shallowly embedded: strings are `String`/`List Char`,
conversation state is a `List Chat`, the SSE read loop is a fold over the list
of received byte chunks (already UTF-8 decoded, as `TextDecoder` does), and
`JSON.parse` is an arbitrary function `String → Option Payload` supplied as a
parameter (`none` models a parse exception).  A JavaScript `TypeError` escaping
a state-updater is modelled by `Option` (`none` = throw).
-/

set_option autoImplicit false

namespace HexAgent

/-! ### Text utilities

`refineLLMText` (src/frontend/src/utils/refineLLMText.js):

```js
raw.replace(/\\n/g, " ")
   .replace(/\s{2,}/g, " ")
   .replace(/\*\*(.*?)\*\*/g, "<b>$1</b>")
   .trim()
```
-/

/-- The character class `\s` of the JavaScript regexes, restricted to the ASCII
whitespace characters (the source never receives the exotic Unicode spaces). -/
def jsWs (c : Char) : Bool :=
  c == ' ' || c == '\t' || c == '\n' || c == '\r' || c == '\x0b' || c == '\x0c'

/-- `replace(/\\n/g, " ")`: every literal backslash-n pair becomes one space. -/
def replBN : List Char → List Char
  | '\\' :: 'n' :: rest => ' ' :: replBN rest
  | c :: rest => c :: replBN rest
  | [] => []

/-- Fueled worker for `replace(/\s{2,}/g, " ")`: a run of two or more
whitespace characters collapses to a single space; a lone whitespace
character is kept as is.  The fuel (an upper bound on the length) keeps the
recursion structural so that concrete inputs reduce definitionally. -/
def cwFuel : Nat → List Char → List Char
  | 0, cs => cs
  | _ + 1, [] => []
  | n + 1, c :: rest =>
    if jsWs c && rest.head?.any jsWs then
      ' ' :: cwFuel n (rest.dropWhile jsWs)
    else
      c :: cwFuel n rest

/-- `replace(/\s{2,}/g, " ")`. -/
def collapseWs (cs : List Char) : List Char := cwFuel cs.length cs

/-- Scan for the closing `**` of the lazy regex `\*\*(.*?)\*\*`; `.` does not
match `\n` or `\r`, so the content may not cross a line break.  Returns the
content before the nearest closing pair and the remainder after it. -/
def findClose : List Char → Option (List Char × List Char)
  | '*' :: '*' :: rest => some ([], rest)
  | c :: rest =>
    if c == '\n' || c == '\r' then none
    else (findClose rest).map (fun p => (c :: p.1, p.2))
  | [] => none

/-- Fueled worker for `replace(/\*\*(.*?)\*\*/g, "<b>$1</b>")`. -/
def bFuel : Nat → List Char → List Char
  | 0, cs => cs
  | _ + 1, [] => []
  | n + 1, '*' :: '*' :: rest =>
    match findClose rest with
    | some (content, rest') =>
        '<' :: 'b' :: '>' :: (content ++ '<' :: '/' :: 'b' :: '>' :: bFuel n rest')
    | none => '*' :: '*' :: bFuel n rest
  | n + 1, c :: rest => c :: bFuel n rest

/-- `replace(/\*\*(.*?)\*\*/g, "<b>$1</b>")`. -/
def boldify (cs : List Char) : List Char := bFuel cs.length cs

/-- `String.prototype.trim()` on the modelled whitespace class. -/
def jsTrimL (cs : List Char) : List Char :=
  ((cs.dropWhile jsWs).reverse.dropWhile jsWs).reverse

/-- `String.prototype.trim()`. -/
def jsTrim (s : String) : String := String.mk (jsTrimL s.data)

/-- `refineLLMText` from src/frontend/src/utils/refineLLMText.js. -/
def refineLLMText (raw : String) : String :=
  String.mk (jsTrimL (boldify (collapseWs (replBN raw.data))))

/-! ### Canonical filenames (`canon`, src/frontend/src/App.js lines 16-21)

```js
(f || "").replace(/^.*[\\/]/, "")   // basename
         .trim()
         .toLowerCase()
         .replace(/_\d+(?=\.[a-z0-9]+$)/, "")
```
-/

/-- A JS regex line terminator: the `.` in `/^.*[\\/]/` matches any character
except `\n`, `\r`, U+2028 and U+2029. -/
def isLineTerm (c : Char) : Bool :=
  c == '\n' || c == '\r' || c == '\u2028' || c == '\u2029'

/-- `replace(/^.*[\\/]/, "")`: the anchored greedy match is the longest prefix
of non-line-terminator characters ending in `/` or `\`, and it is deleted.
Since `.` does not cross line breaks, only separators before the first line
terminator can be reached; when the first line holds no separator nothing is
replaced (the two `takeWhile` pieces then reassemble `cs` unchanged). -/
def basenameL (cs : List Char) : List Char :=
  ((cs.takeWhile (fun c => !isLineTerm c)).reverse.takeWhile
      (fun c => !(c == '/' || c == '\\'))).reverse
    ++ cs.drop (cs.takeWhile (fun c => !isLineTerm c)).length

/-- A character of the class `[a-z0-9]` used for the extension in the
`_<digits>` suffix regex. -/
def isLowerAlnum (c : Char) : Bool :=
  ('a' ≤ c && c ≤ 'z') || ('0' ≤ c && c ≤ '9')

/-- `replace(/_\d+(?=\.[a-z0-9]+$)/, "")`: if the last dot is followed only by
`[a-z0-9]` characters (a nonempty extension) and the stem before that dot ends
in `_` plus one or more digits, delete that `_<digits>` run. -/
def stripNumSuffixL (cs : List Char) : List Char :=
  let rev := cs.reverse
  let extRev := rev.takeWhile (fun c => c != '.')
  match rev.drop extRev.length with
  | '.' :: stemRev =>
    if extRev ≠ [] ∧ extRev.all isLowerAlnum then
      let digits := stemRev.takeWhile Char.isDigit
      match digits, stemRev.drop digits.length with
      | _ :: _, '_' :: stemRev' => stemRev'.reverse ++ '.' :: extRev.reverse
      | _, _ => cs
    else cs
  | _ => cs

/-- `canon` from src/frontend/src/App.js: basename, trim, lowercase, strip the
backend's `_<digits>` collision-avoidance suffix before the extension. -/
def canon (f : String) : String :=
  String.mk (stripNumSuffixL ((jsTrimL (basenameL f.data)).map Char.toLower))

/-! ### Data model -/

/-- A source citation as carried by a `sources` frame: `{filename, page_num,
title}`; `page_num` may be absent or `null` (both modelled as `none`). -/
structure Citation where
  filename : String
  page_num : Option Int
  title : String
deriving Repr, DecidableEq

/-- A chat message.  `sources` is absent until `setSources` first runs on the
message (modelled as `none`). -/
structure Message where
  text : String
  isUser : Bool
  sources : Option (List Citation)
deriving Repr, DecidableEq

/-- One conversation of the sidebar list. -/
structure Chat where
  id : Nat
  title : String
  preview : String
  messages : List Message
deriving Repr, DecidableEq

/-! ### Citation deduplication (`setSources`, src/frontend/src/App.js 106-128) -/

/-- The dedup key `` `${canon(s.filename)}-${s.page_num ?? "?"}` ``. -/
def citeKey (s : Citation) : String :=
  canon s.filename ++ "-" ++ (match s.page_num with
    | some n => toString n
    | none => "?")

/-- The `seen`-set loop of `setSources`: keep each citation whose key has not
been seen yet, accumulating keys. -/
def dedupeAux (seen : List String) : List Citation → List Citation
  | [] => []
  | s :: rest =>
    if citeKey s ∈ seen then dedupeAux seen rest
    else s :: dedupeAux (citeKey s :: seen) rest

/-- `combined = [...existing, ...sources]` followed by the `seen`/`uniq`
dedup loop: the merge performed by `setSources`. -/
def mergeCitations (existing incoming : List Citation) : List Citation :=
  dedupeAux [] (existing ++ incoming)

/-- Modelled from the spec: §4.2 words the merge as "`existing` concatenated
with every element of `incoming` whose key is not already present in
`existing` or earlier in `incoming`".  Used only to compare the code's
`mergeCitations` against the spec's description. -/
def specMerge (existing incoming : List Citation) : List Citation :=
  existing ++ dedupeAux (existing.map citeKey) incoming

/-! ### Store mutations -/

/-- Replace the last element of a list (no-op on `[]`), as
`msgs[msgs.length - 1] = ...` does for a nonempty array. -/
def updateLast {α : Type} (f : α → α) : List α → List α
  | [] => []
  | [a] => [f a]
  | a :: b :: rest => a :: updateLast f (b :: rest)

/-- `appendText` (src/frontend/src/App.js 92-103): append `refineLLMText chunk`
to the text of the last message of every chat whose id is `tid`.  On a matching
chat with no messages the source evaluates `msgs[-1].text`, a `TypeError`;
the updater throws and the store is not replaced — modelled as `none`. -/
def appendText (tid : Nat) (chunk : String) : List Chat → Option (List Chat)
  | [] => some []
  | c :: rest =>
    if c.id = tid then
      match c.messages with
      | [] => none
      | _ :: _ =>
        (appendText tid chunk rest).map
          (fun r =>
            ⟨c.id, c.title, c.preview,
              updateLast (fun m => ⟨m.text ++ refineLLMText chunk, m.isUser, m.sources⟩)
                c.messages⟩ :: r)
    else (appendText tid chunk rest).map (c :: ·)

/-- `setSources` (src/frontend/src/App.js 106-128): merge `srcs` into the last
message's source list of every chat whose id is `tid`.  On a matching chat with
no messages the `msgs[-1] = ...` assignment stores to a non-index property and
the visible message list is unchanged. -/
def setSrcs (tid : Nat) (srcs : List Citation) (chats : List Chat) : List Chat :=
  chats.map (fun c =>
    if c.id = tid then
      match c.messages with
      | [] => c
      | _ :: _ =>
        ⟨c.id, c.title, c.preview,
          updateLast
            (fun m => ⟨m.text, m.isUser, some (mergeCitations (m.sources.getD []) srcs)⟩)
            c.messages⟩
    else c)

/-- Append messages to every chat whose id is `tid` (the
`messages: [...c.messages, ...]` updates of `handleSend`). -/
def appendMsgs (tid : Nat) (ms : List Message) (chats : List Chat) : List Chat :=
  chats.map (fun c =>
    if c.id = tid then ⟨c.id, c.title, c.preview, c.messages ++ ms⟩ else c)

/-- The fixed warning bubble of the `catch` branch of `handleSend`. -/
def warningMsg : Message := ⟨"⚠️ Error retrieving answer from the agent.", false, none⟩

/-! ### Payload classification (src/frontend/src/App.js 187-198) -/

/-- The JSON payload fields the classifier reads.  An absent or `null` field is
`none` (`??` and `if (payload.sources)` treat both alike);
`deltaContent`/`messageContent` stand for `choices?.[0]?.delta?.content` and
`choices?.[0]?.message?.content`. -/
structure Payload where
  deltaContent : Option String
  messageContent : Option String
  content : Option String
  answer : Option String
  text : Option String
  sources : Option (List Citation)
deriving Repr, DecidableEq

/-- Result of classifying one parsed payload. -/
inductive PayloadClass where
  | fragment (s : String)
  | citations (l : List Citation)
  | ignore
deriving Repr, DecidableEq

/-- The `??`-chain
`choices?.[0]?.delta?.content ?? choices?.[0]?.message?.content ?? content ?? answer ?? text`. -/
def tokenChunk (p : Payload) : Option String :=
  p.deltaContent <|> p.messageContent <|> p.content <|> p.answer <|> p.text

/-- `if (tokenChunk) { appendText; return; } if (payload.sources) setSources;`:
a truthy (non-empty) chained value is an answer-fragment; otherwise a present
`sources` array is a citation list; otherwise the payload is ignored. -/
def classify (p : Payload) : PayloadClass :=
  match tokenChunk p with
  | some s =>
    if s = "" then
      match p.sources with
      | some l => .citations l
      | none => .ignore
    else .fragment s
  | none =>
    match p.sources with
    | some l => .citations l
    | none => .ignore

/-! ### Frame handling (src/frontend/src/App.js 175-199) -/

/-- `frame.slice(frame.indexOf(":") + 1).trim()`: since the frame is known to
start with `data:`, the first colon is at index 4, so this drops five
characters and trims (modelled on the character list so that concrete inputs
reduce). -/
def frameData (frame : String) : String := jsTrim (String.mk (frame.data.drop 5))

/-- What one raw frame does, following the `forEach` body: frames lacking the
`data:` marker (`frame.startsWith("data:")`, modelled as a character-list
test), frames whose payload trims to `""`, and frames whose payload fails to
parse are ignored; otherwise the parsed payload is classified. -/
def frameClass (parse : String → Option Payload) (frame : String) : PayloadClass :=
  if "data:".data.isPrefixOf frame.data then
    if frameData frame = "" then .ignore
    else
      match parse (frameData frame) with
      | none => .ignore
      | some p => classify p
  else .ignore

/-- Process one frame against the store (`none` = the updater threw). -/
def processFrame (parse : String → Option Payload) (tid : Nat) (chats : List Chat)
    (frame : String) : Option (List Chat) :=
  match frameClass parse frame with
  | .fragment s => appendText tid s chats
  | .citations l => some (setSrcs tid l chats)
  | .ignore => some chats

/-- `frames.forEach(...)`: process frames left to right; an exception stops the
iteration and is recorded in the Boolean (`true` = threw), leaving the store as
it was when the exception was raised. -/
def processFrames (parse : String → Option Payload) (tid : Nat) :
    List String → List Chat → List Chat × Bool
  | [], chats => (chats, false)
  | f :: rest, chats =>
    (processFrame parse tid chats f).elim (chats, true) (processFrames parse tid rest)

/-- The text of the fragment a frame contributes, if it is an answer-fragment. -/
def frameFragment (parse : String → Option Payload) (frame : String) : Option String :=
  match frameClass parse frame with
  | .fragment s => some s
  | _ => none

/-- The answer-fragments of a frame sequence, in arrival order. -/
def fragmentsOf (parse : String → Option Payload) (frames : List String) : List String :=
  frames.filterMap (frameFragment parse)

/-! ### The SSE frame splitter (`buffer.split(/\r?\n\r?\n/)`) -/

/-- Prepend a character to the first piece of a split. -/
def consHead (c : Char) : List (List Char) → List (List Char)
  | p :: ps => (c :: p) :: ps
  | [] => [[c]]

/-- `split(/\r?\n\r?\n/)` on a character list: at each position the regex
matches one of the four concrete delimiters (the second `\r?` is greedy, and
no delimiter is a prefix of another, so the four cases are disjoint). -/
def splitFramesL : List Char → List (List Char)
  | '\r' :: '\n' :: '\r' :: '\n' :: rest => [] :: splitFramesL rest
  | '\r' :: '\n' :: '\n' :: rest => [] :: splitFramesL rest
  | '\n' :: '\r' :: '\n' :: rest => [] :: splitFramesL rest
  | '\n' :: '\n' :: rest => [] :: splitFramesL rest
  | c :: rest => consHead c (splitFramesL rest)
  | [] => [[]]

/-- `buffer.split(/\r?\n\r?\n/)` on a string. -/
def splitFramesS (s : String) : List String := (splitFramesL s.data).map String.mk

/-! ### The read loop and `handleSend` (src/frontend/src/App.js 134-213) -/

/-- The `while (true)` reader: per chunk, extend the carry-over buffer, split
it, keep the popped last piece as the new buffer, and run the complete frames
through `forEach`.  Returns the final buffer, the store, and whether an
exception escaped (aborting the loop). -/
def readLoop (parse : String → Option Payload) (tid : Nat) :
    List String → String → List Chat → String × (List Chat × Bool)
  | [], buffer, chats => (buffer, chats, false)
  | chunk :: rest, buffer, chats =>
    let pieces := splitFramesS (buffer ++ chunk)
    let r := processFrames parse tid pieces.dropLast chats
    if r.2 then (pieces.getLastD "", r.1, true)
    else readLoop parse tid rest (pieces.getLastD "") r.1

/-- How the awaited stream ends: `ok` = the reader drained all chunks and
`read()` reported done; `fail` = a transport error was thrown after the given
chunks had been processed (`fail []` covers `!res.ok` and token failures). -/
inductive StreamOutcome where
  | ok (chunks : List String)
  | fail (chunks : List String)

/-- `handleSend` with the conversation id the closures captured at send time
(`activeId` is a per-render constant in the source, so every mutation the
stream performs — including the `catch` warning — uses the id current when the
stream began).  A blank question is a no-op; otherwise the user bubble and the
empty assistant bubble are appended and the stream is consumed; any exception
(transport failure or updater throw) appends the single warning bubble. -/
def handleSend (parse : String → Option Payload) (store : List Chat) (tid : Nat)
    (input : String) (outcome : StreamOutcome) : List Chat :=
  if jsTrim input = "" then store
  else
    match outcome with
    | .ok chunks =>
      if (readLoop parse tid chunks ""
            (appendMsgs tid [⟨jsTrim input, true, none⟩, ⟨"", false, none⟩] store)).2.2 then
        appendMsgs tid [warningMsg]
          (readLoop parse tid chunks ""
            (appendMsgs tid [⟨jsTrim input, true, none⟩, ⟨"", false, none⟩] store)).2.1
      else
        (readLoop parse tid chunks ""
          (appendMsgs tid [⟨jsTrim input, true, none⟩, ⟨"", false, none⟩] store)).2.1
    | .fail chunks =>
      appendMsgs tid [warningMsg]
        (readLoop parse tid chunks ""
          (appendMsgs tid [⟨jsTrim input, true, none⟩, ⟨"", false, none⟩] store)).2.1

/-! ### Chat management (src/frontend/src/App.js 274-280) -/

/-- `Math.max(...chats.map((c) => c.id))` (the chat list is nonempty in every
reachable state, so the `Nat` floor of 0 is never the maximum; `Math.max` is
insensitive to argument order, modelled as a fold). -/
def maxId (chats : List Chat) : Nat := (chats.map (·.id)).foldr Nat.max 0

/-- `handleNewChat`: allocate `max + 1`, prepend the empty conversation,
return the new id (which also becomes the active id). -/
def handleNewChat (chats : List Chat) : Nat × List Chat :=
  let newId := maxId chats + 1
  (newId, ⟨newId, "Chat " ++ toString newId, "New chat started.", []⟩ :: chats)

/-- Component state: the chat list and the active conversation id. -/
structure AppState where
  chats : List Chat
  activeId : Nat

/-- The seeded welcome conversation (`defaultChats`). -/
def initChats : List Chat :=
  [⟨1, "Welcome Chat", "Hello! I'm your Hex-Doc Agent assistant.",
    [⟨"Hello! I'm your Hex-Doc Agent assistant.", false, none⟩]⟩]

/-- Initial component state. -/
def initState : AppState := ⟨initChats, 1⟩

/-- The user intents that mutate chat state: new chat, ask a question (with
the stream's parse behaviour and outcome), select a conversation. -/
inductive UserAction where
  | newChat
  | ask (parse : String → Option Payload) (input : String) (outcome : StreamOutcome)
  | select (i : Nat)

/-- One user action against the component state. -/
def stepApp (s : AppState) : UserAction → AppState
  | .newChat => let r := handleNewChat s.chats; ⟨r.2, r.1⟩
  | .ask parse input outcome =>
      ⟨handleSend parse s.chats s.activeId input outcome, s.activeId⟩
  | .select i => ⟨s.chats, i⟩

/-- Run a sequence of user actions from the initial state, also collecting
every conversation id ever issued (the seeded id 1 and each `handleNewChat`
allocation). -/
def runIssued (acts : List UserAction) : AppState × List Nat :=
  acts.foldl
    (fun p a =>
      match a with
      | .newChat => (stepApp p.1 .newChat, (handleNewChat p.1.chats).1 :: p.2)
      | _ => (stepApp p.1 a, p.2))
    (initState, [1])

/-! ### Specification-side helper functions used by the theorems -/

/-- Concatenation of a list of strings, in order, with no separator. -/
def concatAll : List String → String
  | [] => ""
  | s :: rest => s ++ concatAll rest

/-- What an answer-fragment does to the open message. -/
def fragMsg (s : String) (m : Message) : Message :=
  ⟨m.text ++ refineLLMText s, m.isUser, m.sources⟩

/-- What a citation-list frame does to the open message. -/
def citeMsg (l : List Citation) (m : Message) : Message :=
  ⟨m.text, m.isUser, some (mergeCitations (m.sources.getD []) l)⟩

/-- The open-message effect of one classified payload. -/
def msgApply : PayloadClass → Message → Message
  | .fragment s, m => fragMsg s m
  | .citations l, m => citeMsg l m
  | .ignore, m => m

/-- Apply an open-message update to every chat whose id is `tid`. -/
def updChat (tid : Nat) (g : Message → Message) (c : Chat) : Chat :=
  if c.id = tid then ⟨c.id, c.title, c.preview, updateLast g c.messages⟩ else c

/-- The open-message effect of a whole frame sequence, in arrival order. -/
def applyFrames (parse : String → Option Payload) (frames : List String) (m : Message) :
    Message :=
  frames.foldl (fun m f => msgApply (frameClass parse f) m) m

/-- The first present (non-null) field of the classification priority chain. -/
def firstPresent (p : Payload) : Option String :=
  [p.deltaContent, p.messageContent, p.content, p.answer, p.text].findSome? id

/-- Relation between a store and its descendant under a stream keyed to `tid`:
ids are preserved pointwise and chats other than the target are untouched. -/
def offTarget (tid : Nat) (c c' : Chat) : Prop :=
  c'.id = c.id ∧ (c.id ≠ tid → c' = c)

/-! ## Lemmas about the citation dedup loop -/

theorem mem_map_citeKey_dedupeAux (seen : List String) (l : List Citation) (k : String) :
    k ∈ (dedupeAux seen l).map citeKey ↔ k ∈ l.map citeKey ∧ k ∉ seen := by
  induction l generalizing seen with
  | nil => simp [dedupeAux]
  | cons a rest ih =>
    by_cases ha : citeKey a ∈ seen
    · rw [dedupeAux, if_pos ha]
      rw [ih]
      simp only [List.map_cons, List.mem_cons]
      constructor
      · rintro ⟨hk, hns⟩; exact ⟨Or.inr hk, hns⟩
      · rintro ⟨hk | hk, hns⟩
        · exact absurd (hk ▸ ha) hns
        · exact ⟨hk, hns⟩
    · rw [dedupeAux, if_neg ha]
      simp only [List.map_cons, List.mem_cons, ih]
      constructor
      · rintro (rfl | ⟨hk, hns⟩)
        · exact ⟨Or.inl rfl, ha⟩
        · exact ⟨Or.inr hk, fun hc => hns (by simp [hc])⟩
      · rintro ⟨hk | hk, hns⟩
        · exact Or.inl hk
        · by_cases hka : k = citeKey a
          · exact Or.inl hka
          · exact Or.inr ⟨hk, by simp [hka, hns]⟩

theorem dedupeAux_congr (s₁ s₂ : List String) (l : List Citation)
    (h : ∀ k, k ∈ s₁ ↔ k ∈ s₂) : dedupeAux s₁ l = dedupeAux s₂ l := by
  induction l generalizing s₁ s₂ with
  | nil => rfl
  | cons a rest ih =>
    rw [dedupeAux, dedupeAux]
    by_cases ha : citeKey a ∈ s₁
    · rw [if_pos ha, if_pos ((h _).1 ha)]
      exact ih _ _ h
    · rw [if_neg ha, if_neg (fun hc => ha ((h _).2 hc))]
      exact congrArg _ (ih _ _ (fun k => by simp [h k]))

theorem dedupeAux_append (seen : List String) (l m : List Citation) :
    dedupeAux seen (l ++ m) =
      dedupeAux seen l ++ dedupeAux (l.map citeKey ++ seen) m := by
  induction l generalizing seen with
  | nil => simp [dedupeAux]
  | cons a rest ih =>
    rw [List.cons_append, dedupeAux, dedupeAux]
    by_cases ha : citeKey a ∈ seen
    · rw [if_pos ha, if_pos ha, ih]
      congr 1
      apply dedupeAux_congr
      intro k
      simp only [List.map_cons, List.cons_append, List.mem_cons, List.mem_append]
      constructor
      · intro h2; exact Or.inr h2
      · rintro (rfl | h2)
        · exact Or.inr ha
        · exact h2
    · rw [if_neg ha, if_neg ha, ih, List.cons_append]
      congr 2
      apply dedupeAux_congr
      intro k
      simp only [List.map_cons, List.cons_append, List.mem_cons, List.mem_append]
      constructor
      · rintro (h2 | h2 | h2)
        · exact Or.inr (Or.inl h2)
        · exact Or.inl h2
        · exact Or.inr (Or.inr h2)
      · rintro (h2 | h2 | h2)
        · exact Or.inr (Or.inl h2)
        · exact Or.inl h2
        · exact Or.inr (Or.inr h2)

theorem dedupeAux_eq_nil (seen : List String) (l : List Citation)
    (h : ∀ s ∈ l, citeKey s ∈ seen) : dedupeAux seen l = [] := by
  induction l with
  | nil => rfl
  | cons a rest ih =>
    rw [dedupeAux, if_pos (h a (by simp))]
    exact ih (fun s hs => h s (by simp [hs]))

theorem dedupeAux_eq_self (seen : List String) (l : List Citation)
    (hn : (l.map citeKey).Nodup) (hd : ∀ s ∈ l, citeKey s ∉ seen) :
    dedupeAux seen l = l := by
  induction l generalizing seen with
  | nil => rfl
  | cons a rest ih =>
    rw [dedupeAux, if_neg (hd a (by simp))]
    simp only [List.map_cons, List.nodup_cons] at hn
    congr 1
    refine ih _ hn.2 (fun s hs => ?_)
    simp only [List.mem_cons]
    rintro (hk | hk)
    · exact hn.1 (hk ▸ List.mem_map_of_mem citeKey hs)
    · exact hd s (by simp [hs]) hk

theorem nodup_dedupeAux (seen : List String) (l : List Citation) :
    ((dedupeAux seen l).map citeKey).Nodup := by
  induction l generalizing seen with
  | nil => simp [dedupeAux]
  | cons a rest ih =>
    by_cases ha : citeKey a ∈ seen
    · rw [dedupeAux, if_pos ha]; exact ih _
    · rw [dedupeAux, if_neg ha]
      simp only [List.map_cons, List.nodup_cons]
      refine ⟨fun hmem => ?_, ih _⟩
      rcases (mem_map_citeKey_dedupeAux _ _ _).1 hmem with ⟨_, hns⟩
      exact hns (by simp)

/-! ## Claim theorems: C3, C5, C7, C8 -/

/-- C3 counterexample: `merge` also removes duplicates already inside
`existing`, so its result is not always "`existing` concatenated with new
elements of `incoming`": with `existing` holding the same citation twice and
`incoming` empty, the code returns one copy while the spec's wording returns
both. -/
theorem c3_counterexample :
    mergeCitations [⟨"a.pdf", some 1, "A"⟩, ⟨"a.pdf", some 1, "A"⟩] [] =
      [⟨"a.pdf", some 1, "A"⟩] ∧
    specMerge [⟨"a.pdf", some 1, "A"⟩, ⟨"a.pdf", some 1, "A"⟩] [] =
      [⟨"a.pdf", some 1, "A"⟩, ⟨"a.pdf", some 1, "A"⟩] ∧
    mergeCitations [⟨"a.pdf", some 1, "A"⟩, ⟨"a.pdf", some 1, "A"⟩] [] ≠
      specMerge [⟨"a.pdf", some 1, "A"⟩, ⟨"a.pdf", some 1, "A"⟩] [] := by
  decide

/-- C3 (amended): when `existing` has no duplicate keys — true of every source
list the program ever stores — `merge` is exactly `existing` concatenated with
the incoming citations whose key is new, in first-occurrence order; and for
all inputs `merge` is idempotent (`merge (merge A B) B = merge A B`) and its
result never contains two citations with the same canonical key. -/
theorem c3_merge_spec (A B : List Citation) :
    ((A.map citeKey).Nodup → mergeCitations A B = specMerge A B) ∧
    mergeCitations (mergeCitations A B) B = mergeCitations A B ∧
    ((mergeCitations A B).map citeKey).Nodup := by
  refine ⟨fun hn => ?_, ?_, nodup_dedupeAux _ _⟩
  · unfold mergeCitations specMerge
    rw [dedupeAux_append]
    congr 1
    · exact dedupeAux_eq_self _ _ hn (by simp)
    · exact dedupeAux_congr _ _ _ (fun k => by simp)
  · unfold mergeCitations
    have hD : dedupeAux [] (dedupeAux [] (A ++ B)) = dedupeAux [] (A ++ B) :=
      dedupeAux_eq_self [] _ (nodup_dedupeAux _ _) (by simp)
    have hB : dedupeAux (List.map citeKey (dedupeAux [] (A ++ B)) ++ []) B = [] := by
      apply dedupeAux_eq_nil
      intro s hs
      rw [List.append_nil]
      exact (mem_map_citeKey_dedupeAux _ _ _).2
        ⟨List.mem_map_of_mem citeKey (by simp [hs]), by simp⟩
    rw [dedupeAux_append, hD, hB, List.append_nil]

/-- C3 witness: a duplicate-free `existing` merged with a fresh citation. -/
theorem c3_merge_spec_witness :
    (([⟨"a.pdf", some 1, "A"⟩] : List Citation).map citeKey).Nodup ∧
    mergeCitations [⟨"a.pdf", some 1, "A"⟩] [⟨"b.pdf", none, "B"⟩] =
      specMerge [⟨"a.pdf", some 1, "A"⟩] [⟨"b.pdf", none, "B"⟩] :=
  ⟨by decide, (c3_merge_spec [⟨"a.pdf", some 1, "A"⟩] [⟨"b.pdf", none, "B"⟩]).1 (by decide)⟩

/-- C5 counterexample: a payload whose `content` field is present but empty
and whose `answer` field is the non-empty `"hi"` is still classified as a
citation-list frame, because the `??` chain stops at the present-but-falsy
`content`; so "only if none of the five yields a non-empty string is `sources`
treated as a citation list" fails on the code. -/
theorem c5_counterexample :
    classify ⟨none, none, some "", some "hi", none, some [⟨"a.pdf", some 1, "A"⟩]⟩ =
      .citations [⟨"a.pdf", some 1, "A"⟩] ∧
    (⟨none, none, some "", some "hi", none,
      some [⟨"a.pdf", some 1, "A"⟩]⟩ : Payload).answer = some "hi" ∧
    "hi" ≠ "" := by
  decide

/-- C5 (amended): the classifier takes the first present (non-null) field in
the order delta, message, content, answer, text; the frame is an
answer-fragment iff that value is non-empty, and otherwise (value empty, or no
field present) a present `sources` field makes it a citation-list frame.  In
particular a payload with a non-empty `content` and a `sources` field is an
answer-fragment and its `sources` are ignored. -/
theorem c5_classify_priority (p : Payload) :
    (classify p =
      match firstPresent p with
      | some s =>
        if s = "" then
          match p.sources with
          | some l => PayloadClass.citations l
          | none => PayloadClass.ignore
        else PayloadClass.fragment s
      | none =>
        match p.sources with
        | some l => PayloadClass.citations l
        | none => PayloadClass.ignore) ∧
    (∀ s l, s ≠ "" →
      classify ⟨none, none, some s, none, none, some l⟩ = PayloadClass.fragment s) := by
  constructor
  · rcases p with ⟨d, mc, c, a, t, s⟩
    cases d <;> cases mc <;> cases c <;> cases a <;> cases t <;>
      simp [classify, tokenChunk, firstPresent]
  · intro s l hs
    simp [classify, tokenChunk, hs]

/-- C5 witness for the amended classification. -/
theorem c5_classify_priority_witness :
    "x" ≠ "" ∧
    classify ⟨none, none, some "x", none, none, some []⟩ = PayloadClass.fragment "x" :=
  ⟨by decide,
    (c5_classify_priority ⟨none, none, some "x", none, none, some []⟩).2 "x" [] (by decide)⟩

/-- C7: on a conversation that exists but has an empty message list,
`appendText` evaluates `msgs[-1].text` and throws a `TypeError` (modelled
`none`) instead of being a silent no-op; targeting a missing conversation id
is a correct no-op, and `setSources` on the empty conversation leaves the
store unchanged. -/
theorem c7_appendText_empty_throws :
    appendText 1 "hi" [⟨1, "t", "p", []⟩] = none ∧
    appendText 2 "hi" [⟨1, "t", "p", []⟩] = some [⟨1, "t", "p", []⟩] ∧
    setSrcs 1 [⟨"a.pdf", some 1, "A"⟩] [⟨1, "t", "p", []⟩] = [⟨1, "t", "p", []⟩] := by
  decide

theorem takeWhile_append_cons {α : Type} (p : α → Bool) (a : List α) (b : α) (c : List α)
    (hb : p b = false) : List.takeWhile p (a ++ b :: c) = List.takeWhile p a := by
  induction a with
  | nil => simp [List.takeWhile, hb]
  | cons x xs ih =>
    simp only [List.cons_append, List.takeWhile]
    cases p x <;> simp [ih]

theorem takeWhile_append_all {α : Type} (p : α → Bool) (a : List α) (h : a.all p = true)
    (b : List α) : List.takeWhile p (a ++ b) = a ++ List.takeWhile p b := by
  induction a with
  | nil => rfl
  | cons x xs ih =>
    simp only [List.all_cons, Bool.and_eq_true] at h
    simp [List.takeWhile_cons, h.1, ih h.2]

theorem drop_append_len {α : Type} (a b : List α) (n : Nat) :
    List.drop (a.length + n) (a ++ b) = List.drop n b := by
  induction a with
  | nil => simp
  | cons x xs ih =>
    have hl : (x :: xs).length + n = (xs.length + n) + 1 := by
      simp [List.length_cons]; omega
    rw [hl, List.cons_append, List.drop_succ_cons, ih]

theorem basenameL_append (x y : List Char)
    (hx : x.all (fun c => !isLineTerm c) = true) :
    basenameL (x ++ '/' :: y) = basenameL y := by
  have h1 : List.takeWhile (fun c => !isLineTerm c) (x ++ '/' :: y)
      = x ++ '/' :: List.takeWhile (fun c => !isLineTerm c) y := by
    rw [takeWhile_append_all _ x hx, List.takeWhile_cons, if_pos (by decide)]
  unfold basenameL
  rw [h1, List.reverse_append, List.reverse_cons, List.append_assoc,
    List.singleton_append, takeWhile_append_cons _ _ '/' _ (by decide),
    List.length_append, List.length_cons, drop_append_len, List.drop_succ_cons]

/-- C8 counterexample: `canon` does not strip every path prefix.  The JS `.`
in `/^.*[\\/]/` does not match line terminators, so a separator after a line
break is unreachable by the anchored match, and a path prefix containing a
newline is left in place. -/
theorem c8_counterexample :
    canon ("a\nb" ++ "/" ++ "report.pdf") = "a\nb/report.pdf" ∧
    canon "report.pdf" = "report.pdf" ∧
    canon ("a\nb" ++ "/" ++ "report.pdf") ≠ canon "report.pdf" := by
  decide

/-- C8 (amended): `canon` lowercases, strips the `_<digits>` suffix before
the extension, and strips a path prefix up to the last separator provided the
prefix contains no line terminator (the JS `.` in `/^.*[\\/]/` does not match
line terminators, so only separators on the first line are reachable):
`canon "Report_3.PDF" = canon "report.pdf" = "report.pdf"`, also under a
line-terminator-free directory prefix. -/
theorem c8_canon :
    canon "Report_3.PDF" = "report.pdf" ∧
    canon "report.pdf" = "report.pdf" ∧
    canon "docs/archive/Report_3.PDF" = "report.pdf" ∧
    ∀ p f : String, p.data.all (fun c => !isLineTerm c) = true →
      canon (p ++ "/" ++ f) = canon f := by
  refine ⟨by decide, by decide, by decide, fun p f hp => ?_⟩
  unfold canon
  rw [String.data_append, String.data_append,
    (rfl : ("/" : String).data = ['/']), List.append_assoc, List.singleton_append,
    basenameL_append _ _ hp]

theorem c8_canon_witness :
    ("docs" : String).data.all (fun c => !isLineTerm c) = true ∧
    canon ("docs" ++ "/" ++ "Report_3.PDF") = canon "Report_3.PDF" :=
  ⟨by decide, c8_canon.2.2.2 "docs" "Report_3.PDF" (by decide)⟩

/-! ## Lemmas about the store mutations -/

theorem updateLast_append {α : Type} (f : α → α) (ms : List α) (m : α) :
    updateLast f (ms ++ [m]) = ms ++ [f m] := by
  induction ms with
  | nil => rfl
  | cons a rest ih => cases rest <;> simp_all [updateLast]

theorem updateLast_length {α : Type} (f : α → α) (l : List α) :
    (updateLast f l).length = l.length := by
  induction l with
  | nil => rfl
  | cons a rest ih => cases rest <;> simp_all [updateLast]

theorem updateLast_id {α : Type} (f : α → α) (hf : ∀ a, f a = a) (l : List α) :
    updateLast f l = l := by
  induction l with
  | nil => rfl
  | cons a rest ih => cases rest <;> simp_all [updateLast]

theorem updateLast_comp {α : Type} (f g : α → α) : ∀ l : List α,
    updateLast g (updateLast f l) = updateLast (fun a => g (f a)) l
  | [] => rfl
  | [a] => rfl
  | a :: b :: rest => by
    have ih := updateLast_comp f g (b :: rest)
    cases hr : updateLast f (b :: rest) with
    | nil =>
      have hl := updateLast_length f (b :: rest)
      rw [hr] at hl
      simp at hl
    | cons x xs =>
      calc updateLast g (updateLast f (a :: b :: rest))
          = updateLast g (a :: updateLast f (b :: rest)) := rfl
        _ = updateLast g (a :: x :: xs) := by rw [hr]
        _ = a :: updateLast g (x :: xs) := rfl
        _ = a :: updateLast g (updateLast f (b :: rest)) := by rw [hr]
        _ = a :: updateLast (fun a => g (f a)) (b :: rest) := by rw [ih]
        _ = updateLast (fun a => g (f a)) (a :: b :: rest) := rfl

theorem updateLast_congr {α : Type} (f g : α → α) (h : ∀ a, f a = g a) (l : List α) :
    updateLast f l = updateLast g l := by
  induction l with
  | nil => rfl
  | cons a rest ih => cases rest <;> simp_all [updateLast]

theorem option_elim_some {α β : Type} (a : α) (x : β) (f : α → β) :
    (some a).elim x f = f a := rfl

theorem applyFrames_cons (parse : String → Option Payload) (f : String)
    (rest : List String) (m : Message) :
    applyFrames parse (f :: rest) m =
      applyFrames parse rest (msgApply (frameClass parse f) m) := by
  unfold applyFrames
  rw [List.foldl_cons]

theorem updChat_id_pres (tid : Nat) (g : Message → Message) (c : Chat) :
    (updChat tid g c).id = c.id := by
  unfold updChat
  split <;> rfl

theorem updChat_ignore (tid : Nat) (g : Message → Message) (c : Chat)
    (hg : ∀ m, g m = m) : updChat tid g c = c := by
  unfold updChat
  split
  · rw [updateLast_id g hg]
  · rfl

theorem updChat_comp (tid : Nat) (f g : Message → Message) (c : Chat) :
    updChat tid g (updChat tid f c) = updChat tid (fun m => g (f m)) c := by
  unfold updChat
  by_cases hc : c.id = tid <;> simp [hc, updateLast_comp]

theorem updChat_congr (tid : Nat) (g₁ g₂ : Message → Message) (c : Chat)
    (h : ∀ m, g₁ m = g₂ m) : updChat tid g₁ c = updChat tid g₂ c := by
  unfold updChat
  split
  · rw [updateLast_congr _ _ h]
  · rfl

theorem map_updChat_ignore (tid : Nat) (g : Message → Message) (hg : ∀ m, g m = m)
    (chats : List Chat) : chats.map (updChat tid g) = chats := by
  induction chats with
  | nil => rfl
  | cons c rest ih => rw [List.map_cons, updChat_ignore tid g c hg, ih]

theorem targets_nonempty_map (tid : Nat) (g : Message → Message) (chats : List Chat)
    (h : ∀ c ∈ chats, c.id = tid → c.messages ≠ []) :
    ∀ c ∈ chats.map (updChat tid g), c.id = tid → c.messages ≠ [] := by
  intro c hc hid
  rcases List.mem_map.1 hc with ⟨c₀, hc₀, rfl⟩
  rw [updChat_id_pres] at hid
  have h₀ := h c₀ hc₀ hid
  unfold updChat
  rw [if_pos hid]
  simpa [← List.length_pos, updateLast_length] using List.length_pos.2 h₀

theorem appendText_eq (tid : Nat) (s : String) (chats : List Chat)
    (h : ∀ c ∈ chats, c.id = tid → c.messages ≠ []) :
    appendText tid s chats = some (chats.map (updChat tid (fragMsg s))) := by
  induction chats with
  | nil => rfl
  | cons c rest ih =>
    rw [appendText]
    by_cases hc : c.id = tid
    · rw [if_pos hc]
      cases hm : c.messages with
      | nil => exact absurd hm (h c (by simp) hc)
      | cons m ms =>
        rw [ih (fun c' h' hid => h c' (by simp [h']) hid)]
        simp only [Option.map_some', List.map_cons, Option.some.injEq, List.cons.injEq]
        refine ⟨?_, trivial⟩
        unfold updChat
        rw [if_pos hc, hm]
        congr 1
    · rw [if_neg hc, ih (fun c' h' hid => h c' (by simp [h']) hid)]
      simp [updChat, hc]

theorem setSrcs_eq (tid : Nat) (l : List Citation) (chats : List Chat)
    (h : ∀ c ∈ chats, c.id = tid → c.messages ≠ []) :
    setSrcs tid l chats = chats.map (updChat tid (citeMsg l)) := by
  unfold setSrcs
  apply List.map_congr_left
  intro c hc
  by_cases hid : c.id = tid
  · cases hm : c.messages with
    | nil => exact absurd hm (h c hc hid)
    | cons m ms =>
      simp only [hm, hid, if_true, eq_self_iff_true, updChat]
      congr 1
  · simp [hid, updChat]


theorem processFrame_eq (parse : String → Option Payload) (tid : Nat) (chats : List Chat)
    (f : String) (h : ∀ c ∈ chats, c.id = tid → c.messages ≠ []) :
    processFrame parse tid chats f =
      some (chats.map (updChat tid (msgApply (frameClass parse f)))) := by
  unfold processFrame
  cases hk : frameClass parse f with
  | fragment s =>
    show appendText tid s chats = _
    rw [appendText_eq tid s chats h]
    rfl
  | citations l =>
    show some (setSrcs tid l chats) = _
    rw [setSrcs_eq tid l chats h]
    rfl
  | ignore =>
    show some chats = _
    rw [map_updChat_ignore tid (msgApply PayloadClass.ignore) (fun m => rfl) chats]

theorem processFrames_cons (parse : String → Option Payload) (tid : Nat) (f : String)
    (rest : List String) (chats : List Chat) :
    processFrames parse tid (f :: rest) chats =
      (processFrame parse tid chats f).elim (chats, true) (processFrames parse tid rest) := rfl

theorem processFrames_spec (parse : String → Option Payload) (tid : Nat)
    (frames : List String) : ∀ chats : List Chat,
    (∀ c ∈ chats, c.id = tid → c.messages ≠ []) →
    processFrames parse tid frames chats =
      (chats.map (updChat tid (applyFrames parse frames)), false) := by
  induction frames with
  | nil =>
    intro chats _
    show (chats, false) = _
    rw [map_updChat_ignore tid (applyFrames parse []) (fun m => rfl) chats]
  | cons f rest ih =>
    intro chats h
    have h1 := processFrame_eq parse tid chats f h
    rw [processFrames_cons, h1, option_elim_some,
      ih _ (targets_nonempty_map tid _ chats h), List.map_map]
    have hmap : chats.map
        (updChat tid (applyFrames parse rest) ∘ updChat tid (msgApply (frameClass parse f)))
        = chats.map (updChat tid (applyFrames parse (f :: rest))) := by
      apply List.map_congr_left
      intro c _
      show updChat tid (applyFrames parse rest) (updChat tid (msgApply (frameClass parse f)) c) = _
      rw [updChat_comp]
      exact updChat_congr tid _ _ c (fun m => (applyFrames_cons parse f rest m).symm)
    rw [hmap]

theorem fragmentsOf_cons_some (parse : String → Option Payload) (f : String)
    (rest : List String) (s : String) (h : frameFragment parse f = some s) :
    fragmentsOf parse (f :: rest) = s :: fragmentsOf parse rest := by
  unfold fragmentsOf
  simp only [List.filterMap_cons, h]

theorem fragmentsOf_cons_none (parse : String → Option Payload) (f : String)
    (rest : List String) (h : frameFragment parse f = none) :
    fragmentsOf parse (f :: rest) = fragmentsOf parse rest := by
  unfold fragmentsOf
  simp only [List.filterMap_cons, h]

theorem applyFrames_text (parse : String → Option Payload) (frames : List String) :
    ∀ m : Message,
    (applyFrames parse frames m).text =
        m.text ++ concatAll ((fragmentsOf parse frames).map refineLLMText) ∧
    (applyFrames parse frames m).isUser = m.isUser := by
  induction frames with
  | nil => intro m; simp [applyFrames, fragmentsOf, concatAll, String.append_empty]
  | cons f rest ih =>
    intro m
    rw [applyFrames_cons]
    rcases ih (msgApply (frameClass parse f) m) with ⟨ht, hu⟩
    cases hk : frameClass parse f with
    | fragment s =>
      have hf : frameFragment parse f = some s := by
        unfold frameFragment
        rw [hk]
      rw [hk] at ht hu
      rw [ht, hu, fragmentsOf_cons_some parse f rest s hf]
      refine ⟨?_, rfl⟩
      show (m.text ++ refineLLMText s) ++
          concatAll (List.map refineLLMText (fragmentsOf parse rest)) = _
      rw [List.map_cons]
      show _ = m.text ++ (refineLLMText s ++
        concatAll (List.map refineLLMText (fragmentsOf parse rest)))
      rw [String.append_assoc]
    | citations l =>
      have hf : frameFragment parse f = none := by
        unfold frameFragment
        rw [hk]
      rw [hk] at ht hu
      rw [ht, hu, fragmentsOf_cons_none parse f rest hf]
      exact ⟨rfl, rfl⟩
    | ignore =>
      have hf : frameFragment parse f = none := by
        unfold frameFragment
        rw [hk]
      rw [hk] at ht hu
      rw [ht, hu, fragmentsOf_cons_none parse f rest hf]
      exact ⟨rfl, rfl⟩

theorem find?_updChat_map (tid : Nat) (g : Message → Message) (chats : List Chat) :
    (chats.map (updChat tid g)).find? (fun c => c.id == tid) =
      Option.map (updChat tid g) (chats.find? (fun c => c.id == tid)) := by
  rw [List.find?_map]
  have hp : ((fun c : Chat => c.id == tid) ∘ updChat tid g) = (fun c : Chat => c.id == tid) := by
    funext c
    simp [Function.comp, updChat_id_pres]
  rw [hp]

/-! ## Claim theorems: C2, C6 -/

/-- C2: replaying any frame sequence through the `forEach` body leaves the
open assistant message of the target conversation holding its initial text
followed by the concatenation, in arrival order, of `refineLLMText` of every
answer-fragment (normalization is applied per fragment, exactly as
`appendText` does); earlier messages are untouched and no exception occurs. -/
theorem c2_stream_text (parse : String → Option Payload) (tid : Nat)
    (frames : List String) (chats : List Chat) (c : Chat) (ms : List Message)
    (m : Message)
    (hne : ∀ c' ∈ chats, c'.id = tid → c'.messages ≠ [])
    (hfind : chats.find? (fun c' => c'.id == tid) = some c)
    (hmsg : c.messages = ms ++ [m]) :
    (processFrames parse tid frames chats).2 = false ∧
    (processFrames parse tid frames chats).1.find? (fun c' => c'.id == tid) =
      some ⟨c.id, c.title, c.preview,
        ms ++ [⟨m.text ++ concatAll ((fragmentsOf parse frames).map refineLLMText),
          m.isUser, (applyFrames parse frames m).sources⟩]⟩ := by
  rw [processFrames_spec parse tid frames chats hne]
  refine ⟨rfl, ?_⟩
  rw [find?_updChat_map, hfind]
  have hid : c.id = tid := by simpa using List.find?_some hfind
  show some (updChat tid (applyFrames parse frames) c) = _
  unfold updChat
  rw [if_pos hid, hmsg, updateLast_append]
  rcases applyFrames_text parse frames m with ⟨ht, hu⟩
  congr 2
  cases happ : applyFrames parse frames m with
  | mk t u s => rw [happ] at ht hu; simp_all

/-- C2 witness: two fragments and a citation frame on a fresh open message. -/
theorem c2_stream_text_witness :
    (∀ c' ∈ [(⟨1, "t", "p", [⟨"q", true, none⟩, ⟨"", false, none⟩]⟩ : Chat)],
      c'.id = 1 → c'.messages ≠ []) ∧
    ([(⟨1, "t", "p", [⟨"q", true, none⟩, ⟨"", false, none⟩]⟩ : Chat)].find?
      (fun c' => c'.id == 1) = some ⟨1, "t", "p", [⟨"q", true, none⟩, ⟨"", false, none⟩]⟩) ∧
    (processFrames (fun _ => some ⟨some "Hel", none, none, none, none, none⟩) 1
      ["data: x", "nope"]
      [⟨1, "t", "p", [⟨"q", true, none⟩, ⟨"", false, none⟩]⟩]).2 = false :=
  ⟨by decide, by decide,
    (c2_stream_text (fun _ => some ⟨some "Hel", none, none, none, none, none⟩) 1
      ["data: x", "nope"]
      [⟨1, "t", "p", [⟨"q", true, none⟩, ⟨"", false, none⟩]⟩]
      ⟨1, "t", "p", [⟨"q", true, none⟩, ⟨"", false, none⟩]⟩
      [⟨"q", true, none⟩] ⟨"", false, none⟩
      (by decide) (by decide) rfl).1⟩

/-- C6: a frame without the `data:` marker, a frame whose payload trims to the
empty string, and a frame whose payload fails to parse are all discarded
without changing the store, and removing such a frame from anywhere in a frame
sequence does not change the result of processing the sequence. -/
theorem c6_malformed_frames_skipped (parse : String → Option Payload) (tid : Nat)
    (chats : List Chat) (A B : List String) (frame : String)
    (h : ¬ "data:".data.isPrefixOf frame.data ∨ frameData frame = "" ∨
      parse (frameData frame) = none) :
    processFrame parse tid chats frame = some chats ∧
    processFrames parse tid (A ++ frame :: B) chats =
      processFrames parse tid (A ++ B) chats := by
  have hignore : frameClass parse frame = PayloadClass.ignore := by
    unfold frameClass
    rcases h with h | h | h
    · rw [if_neg h]
    · by_cases hp : "data:".data.isPrefixOf frame.data
      · rw [if_pos hp, if_pos h]
      · rw [if_neg hp]
    · by_cases hp : "data:".data.isPrefixOf frame.data
      · by_cases he : frameData frame = ""
        · rw [if_pos hp, if_pos he]
        · rw [if_pos hp, if_neg he, h]
      · rw [if_neg hp]
  have hclass : ∀ X : List Chat, processFrame parse tid X frame = some X := by
    intro X
    unfold processFrame
    rw [hignore]
  refine ⟨hclass chats, ?_⟩
  induction A generalizing chats with
  | nil =>
    rw [List.nil_append, processFrames_cons, hclass chats, option_elim_some,
      List.nil_append]
  | cons f rest ih =>
    rw [List.cons_append, List.cons_append, processFrames_cons, processFrames_cons]
    cases processFrame parse tid chats f with
    | none => rfl
    | some chats' =>
      show processFrames parse tid (rest ++ frame :: B) chats' =
        processFrames parse tid (rest ++ B) chats'
      exact ih chats'

/-- C6 witness: a malformed frame between two valid fragment frames. -/
theorem c6_malformed_frames_skipped_witness :
    (¬ "data:".data.isPrefixOf ("data: not json" : String).data ∨
      frameData "data: not json" = "" ∨
      (fun _ => (none : Option Payload)) (frameData "data: not json") = none) ∧
    processFrames (fun _ => (none : Option Payload)) 1
      (["data: a"] ++ "data: not json" :: ["data: b"]) [] =
      processFrames (fun _ => (none : Option Payload)) 1 (["data: a"] ++ ["data: b"]) [] :=
  ⟨Or.inr (Or.inr rfl),
    (c6_malformed_frames_skipped (fun _ => none) 1 [] ["data: a"] ["data: b"]
      "data: not json" (Or.inr (Or.inr rfl))).2⟩

/-! ## Lemmas about the SSE frame splitter

The central fact: splitting is compositional over chunk concatenation — the
pieces before the last are final, and the last piece is the carry-over. -/

theorem consHead_ne_nil (c : Char) (S : List (List Char)) : consHead c S ≠ [] := by
  cases S <;> simp [consHead]

theorem getLastD_nil {α : Type} (d : α) : ([] : List α).getLastD d = d := rfl

theorem getLastD_congr {α : Type} (l : List α) (h : l ≠ []) (a b : α) :
    l.getLastD a = l.getLastD b := by
  cases l with
  | nil => exact absurd rfl h
  | cons x xs => rw [List.getLastD_cons, List.getLastD_cons]

theorem dropLast_append_ne {α : Type} (B : List α) (h : B ≠ []) : ∀ A : List α,
    (A ++ B).dropLast = A ++ B.dropLast
  | [] => by simp
  | a :: A => by
    have hAB : A ++ B ≠ [] := fun hc => h (List.append_eq_nil.mp hc).2
    cases hAB' : A ++ B with
    | nil => exact absurd hAB' hAB
    | cons x xs =>
      rw [List.cons_append, hAB', List.dropLast_cons₂, ← hAB',
        dropLast_append_ne B h A, List.cons_append]

theorem getLastD_append_ne {α : Type} (B : List α) (h : B ≠ []) (d : α) : ∀ A : List α,
    (A ++ B).getLastD d = B.getLastD d
  | [] => rfl
  | a :: A => by
    rw [List.cons_append, List.getLastD_cons, getLastD_append_ne B h a A,
      getLastD_congr B h a d]

theorem splitFramesL_ne_nil (cs : List Char) : splitFramesL cs ≠ [] := by
  induction cs using splitFramesL.induct with
  | case1 rest ih => simp [splitFramesL]
  | case2 rest ih => simp [splitFramesL]
  | case3 rest ih => simp [splitFramesL]
  | case4 rest ih => simp [splitFramesL]
  | case5 c rest h1 h2 h3 h4 ih =>
    rw [splitFramesL]
    · exact consHead_ne_nil c _
    · exact h1
    · exact h2
    · exact h3
    · exact h4
  | case6 => simp [splitFramesL]

theorem splitFramesL_not_delim (c : Char) (rest : List Char)
    (h1 : ∀ r, c = '\r' → rest = '\n' :: '\r' :: '\n' :: r → False)
    (h2 : ∀ r, c = '\r' → rest = '\n' :: '\n' :: r → False)
    (h3 : ∀ r, c = '\n' → rest = '\r' :: '\n' :: r → False)
    (h4 : ∀ r, c = '\n' → rest = '\n' :: r → False) :
    splitFramesL (c :: rest) = consHead c (splitFramesL rest) := by
  rw [splitFramesL]
  · exact h1
  · exact h2
  · exact h3
  · exact h4

theorem splitFramesL_singleton : ∀ (cs p : List Char), splitFramesL cs = [p] → p = cs := by
  intro cs
  induction cs using splitFramesL.induct with
  | case1 rest ih =>
    intro p hp
    rw [splitFramesL] at hp
    injection hp with _ h
    exact absurd h (splitFramesL_ne_nil rest)
  | case2 rest ih =>
    intro p hp
    rw [splitFramesL] at hp
    injection hp with _ h
    exact absurd h (splitFramesL_ne_nil rest)
  | case3 rest ih =>
    intro p hp
    rw [splitFramesL] at hp
    injection hp with _ h
    exact absurd h (splitFramesL_ne_nil rest)
  | case4 rest ih =>
    intro p hp
    rw [splitFramesL] at hp
    injection hp with _ h
    exact absurd h (splitFramesL_ne_nil rest)
  | case5 c rest h1 h2 h3 h4 ih =>
    intro p hp
    rw [splitFramesL_not_delim c rest h1 h2 h3 h4] at hp
    rcases hS : splitFramesL rest with _ | ⟨q, qs⟩
    · exact absurd hS (splitFramesL_ne_nil rest)
    rw [hS] at hp
    show p = c :: rest
    have hq : q = rest := by
      apply ih
      rw [hS]
      injection hp with hp1 hp2
      rw [hp2]
    injection hp with hp1 hp2
    rw [← hp1, hq]
  | case6 =>
    intro p hp
    rw [splitFramesL] at hp
    injection hp with hp1 _
    exact hp1.symm

theorem splitFramesL_cons_single (c : Char) (rest : List Char)
    (h1 : ∀ r, c = '\r' → rest = '\n' :: '\r' :: '\n' :: r → False)
    (h2 : ∀ r, c = '\r' → rest = '\n' :: '\n' :: r → False)
    (h3 : ∀ r, c = '\n' → rest = '\r' :: '\n' :: r → False)
    (h4 : ∀ r, c = '\n' → rest = '\n' :: r → False)
    (hS : splitFramesL rest = [rest]) :
    splitFramesL (c :: rest) = [c :: rest] := by
  rw [splitFramesL_not_delim c rest h1 h2 h3 h4, hS]
  rfl

theorem splitFramesL_cons_append_not_delim (c : Char) (rest y : List Char)
    (h1 : ∀ r, c = '\r' → rest = '\n' :: '\r' :: '\n' :: r → False)
    (h2 : ∀ r, c = '\r' → rest = '\n' :: '\n' :: r → False)
    (h3 : ∀ r, c = '\n' → rest = '\r' :: '\n' :: r → False)
    (h4 : ∀ r, c = '\n' → rest = '\n' :: r → False)
    (hlong : splitFramesL rest ≠ [rest]) :
    splitFramesL (c :: (rest ++ y)) = consHead c (splitFramesL (rest ++ y)) := by
  apply splitFramesL_not_delim
  · intro r hc hr
    rcases rest with _ | ⟨a, t⟩
    · exact hlong rfl
    rw [List.cons_append] at hr
    injection hr with ha hr
    subst ha
    rcases t with _ | ⟨b, t⟩
    · exact hlong rfl
    rw [List.cons_append] at hr
    injection hr with hb hr
    subst hb
    rcases t with _ | ⟨d, t⟩
    · exact hlong rfl
    rw [List.cons_append] at hr
    injection hr with hd hr
    subst hd
    exact h1 t hc rfl
  · intro r hc hr
    rcases rest with _ | ⟨a, t⟩
    · exact hlong rfl
    rw [List.cons_append] at hr
    injection hr with ha hr
    subst ha
    rcases t with _ | ⟨b, t⟩
    · exact hlong rfl
    rw [List.cons_append] at hr
    injection hr with hb hr
    subst hb
    exact h2 t hc rfl
  · intro r hc hr
    rcases rest with _ | ⟨a, t⟩
    · exact hlong rfl
    rw [List.cons_append] at hr
    injection hr with ha hr
    subst ha
    rcases t with _ | ⟨b, t⟩
    · exact hlong rfl
    rw [List.cons_append] at hr
    injection hr with hb hr
    subst hb
    exact h3 t hc rfl
  · intro r hc hr
    rcases rest with _ | ⟨a, t⟩
    · exact hlong rfl
    rw [List.cons_append] at hr
    injection hr with ha hr
    subst ha
    exact h4 t hc rfl

theorem splitFramesL_append (y : List Char) : ∀ x : List Char,
    splitFramesL (x ++ y) =
      (splitFramesL x).dropLast ++
        splitFramesL ((splitFramesL x).getLastD [] ++ y) := by
  intro x
  induction x using splitFramesL.induct with
  | case1 rest ih =>
    rcases hS : splitFramesL rest with _ | ⟨p, ps⟩
    · exact absurd hS (splitFramesL_ne_nil rest)
    rw [hS] at ih
    simp only [List.cons_append]
    rw [splitFramesL, splitFramesL, ih, hS]
    simp only [List.dropLast_cons₂, List.getLastD_cons, List.cons_append]
  | case2 rest ih =>
    rcases hS : splitFramesL rest with _ | ⟨p, ps⟩
    · exact absurd hS (splitFramesL_ne_nil rest)
    rw [hS] at ih
    simp only [List.cons_append]
    rw [splitFramesL, splitFramesL, ih, hS]
    simp only [List.dropLast_cons₂, List.getLastD_cons, List.cons_append]
  | case3 rest ih =>
    rcases hS : splitFramesL rest with _ | ⟨p, ps⟩
    · exact absurd hS (splitFramesL_ne_nil rest)
    rw [hS] at ih
    simp only [List.cons_append]
    rw [splitFramesL, splitFramesL, ih, hS]
    simp only [List.dropLast_cons₂, List.getLastD_cons, List.cons_append]
  | case4 rest ih =>
    rcases hS : splitFramesL rest with _ | ⟨p, ps⟩
    · exact absurd hS (splitFramesL_ne_nil rest)
    rw [hS] at ih
    simp only [List.cons_append]
    rw [splitFramesL, splitFramesL, ih, hS]
    simp only [List.dropLast_cons₂, List.getLastD_cons, List.cons_append]
  | case5 c rest h1 h2 h3 h4 ih =>
    rcases hS : splitFramesL rest with _ | ⟨p, ps⟩
    · exact absurd hS (splitFramesL_ne_nil rest)
    by_cases hps : ps = []
    · subst hps
      have hp : p = rest := splitFramesL_singleton rest p hS
      subst hp
      have hsplit := splitFramesL_cons_single c p h1 h2 h3 h4 hS
      rw [List.cons_append, hsplit, List.dropLast_single, List.getLastD_cons,
        getLastD_nil, List.nil_append, List.cons_append]
    · have hlong : splitFramesL rest ≠ [rest] := by
        rw [hS]
        intro hcontra
        injection hcontra with _ hps'
        exact hps hps'
      rcases ps with _ | ⟨q, qs⟩
      · exact absurd rfl hps
      rw [hS] at ih
      rw [List.cons_append,
        splitFramesL_cons_append_not_delim c rest y h1 h2 h3 h4 hlong, ih,
        splitFramesL_not_delim c rest h1 h2 h3 h4, hS]
      simp only [consHead, List.dropLast_cons₂, List.getLastD_cons, List.cons_append]
  | case6 =>
    simp [splitFramesL]

theorem splitFramesL_last : ∀ cs : List Char,
    splitFramesL ((splitFramesL cs).getLastD []) =
      [(splitFramesL cs).getLastD []] := by
  intro cs
  induction cs using splitFramesL.induct with
  | case1 rest ih =>
    rcases hS : splitFramesL rest with _ | ⟨p, ps⟩
    · exact absurd hS (splitFramesL_ne_nil rest)
    rw [hS] at ih
    rw [splitFramesL, hS, List.getLastD_cons]
    exact ih
  | case2 rest ih =>
    rcases hS : splitFramesL rest with _ | ⟨p, ps⟩
    · exact absurd hS (splitFramesL_ne_nil rest)
    rw [hS] at ih
    rw [splitFramesL, hS, List.getLastD_cons]
    exact ih
  | case3 rest ih =>
    rcases hS : splitFramesL rest with _ | ⟨p, ps⟩
    · exact absurd hS (splitFramesL_ne_nil rest)
    rw [hS] at ih
    rw [splitFramesL, hS, List.getLastD_cons]
    exact ih
  | case4 rest ih =>
    rcases hS : splitFramesL rest with _ | ⟨p, ps⟩
    · exact absurd hS (splitFramesL_ne_nil rest)
    rw [hS] at ih
    rw [splitFramesL, hS, List.getLastD_cons]
    exact ih
  | case5 c rest h1 h2 h3 h4 ih =>
    rcases hS : splitFramesL rest with _ | ⟨p, ps⟩
    · exact absurd hS (splitFramesL_ne_nil rest)
    rw [hS] at ih
    rw [splitFramesL_not_delim c rest h1 h2 h3 h4, hS]
    rcases ps with _ | ⟨q, qs⟩
    · have hp : p = rest := splitFramesL_singleton rest p hS
      subst hp
      simp only [consHead, List.getLastD_cons, getLastD_nil]
      exact splitFramesL_cons_single c p h1 h2 h3 h4 hS
    · simp only [consHead, List.getLastD_cons]
      simp only [List.getLastD_cons] at ih
      exact ih
  | case6 =>
    simp [splitFramesL]

theorem getLastD_map_mk : ∀ (S : List (List Char)) (d : List Char),
    (S.map String.mk).getLastD (String.mk d) = String.mk (S.getLastD d)
  | [], _ => rfl
  | p :: ps, d => by
    rw [List.map_cons, List.getLastD_cons, List.getLastD_cons]
    exact getLastD_map_mk ps p

theorem splitFramesS_ne_nil (s : String) : splitFramesS s ≠ [] := by
  unfold splitFramesS
  simp [splitFramesL_ne_nil]

theorem splitFramesS_append (x y : String) :
    splitFramesS (x ++ y) =
      (splitFramesS x).dropLast ++ splitFramesS ((splitFramesS x).getLastD "" ++ y) := by
  unfold splitFramesS
  rw [String.data_append, splitFramesL_append y.data x.data, List.map_append,
    List.map_dropLast]
  congr 2
  rw [String.data_append]
  congr 1
  rw [show ("" : String) = String.mk [] from rfl, getLastD_map_mk]

theorem splitFramesS_last (s : String) :
    splitFramesS ((splitFramesS s).getLastD "") = [(splitFramesS s).getLastD ""] := by
  unfold splitFramesS
  rw [show ("" : String) = String.mk [] from rfl, getLastD_map_mk]
  rw [show (String.mk ((splitFramesL s.data).getLastD [])).data =
    (splitFramesL s.data).getLastD [] from rfl]
  rw [splitFramesL_last s.data]
  rfl

theorem option_elim_none {α β : Type} (x : β) (f : α → β) :
    (none : Option α).elim x f = x := rfl

theorem processFrames_append_ok (parse : String → Option Payload) (tid : Nat) :
    ∀ (F G : List String) (chats s : List Chat),
    processFrames parse tid F chats = (s, false) →
    processFrames parse tid (F ++ G) chats = processFrames parse tid G s
  | [], G, chats, s, h => by
    have h' : ((chats, false) : List Chat × Bool) = (s, false) := h
    have hs : chats = s := congrArg Prod.fst h'
    rw [List.nil_append, ← hs]
  | f :: F, G, chats, s, h => by
    cases hf : processFrame parse tid chats f with
    | none =>
      rw [processFrames_cons, hf, option_elim_none] at h
      exact absurd (congrArg Prod.snd h) (by simp)
    | some chats' =>
      rw [processFrames_cons, hf, option_elim_some] at h
      rw [List.cons_append, processFrames_cons, hf, option_elim_some]
      exact processFrames_append_ok parse tid F G chats' s h

theorem processFrames_append_crash (parse : String → Option Payload) (tid : Nat) :
    ∀ (F G : List String) (chats s : List Chat),
    processFrames parse tid F chats = (s, true) →
    processFrames parse tid (F ++ G) chats = (s, true)
  | [], _, chats, s, h =>
    absurd (congrArg Prod.snd (show ((chats, false) : List Chat × Bool) = (s, true) from h))
      (by simp)
  | f :: F, G, chats, s, h => by
    cases hf : processFrame parse tid chats f with
    | none =>
      rw [processFrames_cons, hf, option_elim_none] at h
      rw [List.cons_append, processFrames_cons, hf, option_elim_none]
      exact h
    | some chats' =>
      rw [processFrames_cons, hf, option_elim_some] at h
      rw [List.cons_append, processFrames_cons, hf, option_elim_some]
      exact processFrames_append_crash parse tid F G chats' s h

theorem readLoop_cons (parse : String → Option Payload) (tid : Nat) (chunk : String)
    (rest : List String) (buffer : String) (chats : List Chat) :
    readLoop parse tid (chunk :: rest) buffer chats =
      if (processFrames parse tid (splitFramesS (buffer ++ chunk)).dropLast chats).2 then
        ((splitFramesS (buffer ++ chunk)).getLastD "",
          (processFrames parse tid (splitFramesS (buffer ++ chunk)).dropLast chats).1, true)
      else
        readLoop parse tid rest ((splitFramesS (buffer ++ chunk)).getLastD "")
          (processFrames parse tid (splitFramesS (buffer ++ chunk)).dropLast chats).1 := rfl

theorem readLoop_spec (parse : String → Option Payload) (tid : Nat) :
    ∀ (chunks : List String) (buffer : String) (chats : List Chat),
    splitFramesS buffer = [buffer] →
    (readLoop parse tid chunks buffer chats).2 =
      processFrames parse tid (splitFramesS (buffer ++ concatAll chunks)).dropLast chats ∧
    ((processFrames parse tid (splitFramesS (buffer ++ concatAll chunks)).dropLast chats).2
        = false →
      (readLoop parse tid chunks buffer chats).1 =
        (splitFramesS (buffer ++ concatAll chunks)).getLastD "")
  | [], buffer, chats, hbuf => by
    constructor
    · show (chats, false) = _
      rw [show concatAll [] = "" from rfl, String.append_empty, hbuf, List.dropLast_single]
      rfl
    · intro _
      show buffer = _
      rw [show concatAll [] = "" from rfl, String.append_empty, hbuf, List.getLastD_cons,
        getLastD_nil]
  | chunk :: rest, buffer, chats, hbuf => by
    have hjoin : buffer ++ concatAll (chunk :: rest) = (buffer ++ chunk) ++ concatAll rest := by
      rw [show concatAll (chunk :: rest) = chunk ++ concatAll rest from rfl,
        String.append_assoc]
    have happ := splitFramesS_append (buffer ++ chunk) (concatAll rest)
    have hQne : splitFramesS ((splitFramesS (buffer ++ chunk)).getLastD "" ++ concatAll rest)
        ≠ [] := splitFramesS_ne_nil _
    have hPL := splitFramesS_last (buffer ++ chunk)
    cases hr : processFrames parse tid (splitFramesS (buffer ++ chunk)).dropLast chats with
    | mk s1 crashed =>
      cases crashed with
      | true =>
        have hstep : readLoop parse tid (chunk :: rest) buffer chats =
            ((splitFramesS (buffer ++ chunk)).getLastD "", s1, true) := by
          rw [readLoop_cons, hr]
          rfl
        rw [hstep, hjoin, happ, dropLast_append_ne _ hQne,
          processFrames_append_crash parse tid _ _ chats s1 hr]
        exact ⟨rfl, fun h => absurd h (by simp)⟩
      | false =>
        have hstep : readLoop parse tid (chunk :: rest) buffer chats =
            readLoop parse tid rest ((splitFramesS (buffer ++ chunk)).getLastD "") s1 := by
          rw [readLoop_cons, hr]
          rfl
        rw [hstep, hjoin, happ, dropLast_append_ne _ hQne, getLastD_append_ne _ hQne,
          processFrames_append_ok parse tid _ _ chats s1 hr]
        exact readLoop_spec parse tid rest ((splitFramesS (buffer ++ chunk)).getLastD "")
          s1 hPL

/-! ## Claim theorem: C10 -/

/-- C10: for any chunked delivery, the reader applies exactly the frames before
the last piece of the split of the whole received text — a trailing `data:`
payload not followed by the blank-line delimiter is the last piece, so it is
kept in the carry-over buffer and never classified or applied, while the loop
still returns normally (second conjunct: when no updater exception occurred,
the final buffer is exactly that unterminated last piece). -/
theorem c10_trailing_payload_dropped (parse : String → Option Payload) (tid : Nat)
    (chunks : List String) (chats : List Chat) :
    (readLoop parse tid chunks "" chats).2 =
      processFrames parse tid (splitFramesS (concatAll chunks)).dropLast chats ∧
    ((processFrames parse tid (splitFramesS (concatAll chunks)).dropLast chats).2 = false →
      (readLoop parse tid chunks "" chats).1 =
        (splitFramesS (concatAll chunks)).getLastD "") := by
  have h := readLoop_spec parse tid chunks "" chats rfl
  rwa [show ("" : String) ++ concatAll chunks = concatAll chunks from rfl] at h

/-- C10 witness: two chunks whose concatenation ends in an unterminated
`data:` payload; nothing crashes, the trailing payload stays in the buffer. -/
theorem c10_trailing_payload_dropped_witness :
    (processFrames (fun _ => (none : Option Payload)) 1
      (splitFramesS (concatAll ["data: a\n\nda", "ta: b"])).dropLast []).2 = false ∧
    (readLoop (fun _ => (none : Option Payload)) 1 ["data: a\n\nda", "ta: b"] "" []).1 =
      (splitFramesS (concatAll ["data: a\n\nda", "ta: b"])).getLastD "" :=
  ⟨by decide,
    (c10_trailing_payload_dropped (fun _ => none) 1 ["data: a\n\nda", "ta: b"] []).2
      (by decide)⟩

/-! ## Isolation: a stream keyed to `tid` never touches another conversation -/

theorem offTarget_refl (tid : Nat) (chats : List Chat) :
    List.Forall₂ (offTarget tid) chats chats :=
  List.forall₂_same.2 (fun _ _ => ⟨rfl, fun _ => rfl⟩)

theorem offTarget_trans (tid : Nat) : ∀ {a b c : List Chat},
    List.Forall₂ (offTarget tid) a b → List.Forall₂ (offTarget tid) b c →
    List.Forall₂ (offTarget tid) a c := by
  intro a b c hab
  induction hab generalizing c with
  | nil =>
    intro hbc
    cases hbc
    exact .nil
  | @cons x y xs ys hR _ ih =>
    intro hbc
    cases hbc with
    | cons hR' hbc' =>
      refine .cons ⟨hR'.1.trans hR.1, fun hne => ?_⟩ (ih hbc')
      have h1 := hR.2 hne
      have h2 := hR'.2 (by rw [hR.1]; exact hne)
      rw [h2, h1]

theorem offTarget_map (tid : Nat) (φ : Chat → Chat) (hφ1 : ∀ c, (φ c).id = c.id)
    (hφ2 : ∀ c, c.id ≠ tid → φ c = c) (chats : List Chat) :
    List.Forall₂ (offTarget tid) chats (chats.map φ) := by
  induction chats with
  | nil => exact .nil
  | cons c rest ih => exact .cons ⟨hφ1 c, hφ2 c⟩ ih

theorem appendText_offTarget (tid : Nat) (s : String) : ∀ (chats r : List Chat),
    appendText tid s chats = some r → List.Forall₂ (offTarget tid) chats r
  | [], r, h => by
    injection h with h
    rw [← h]
    exact .nil
  | c :: rest, r, h => by
    rw [appendText] at h
    by_cases hc : c.id = tid
    · rw [if_pos hc] at h
      cases hm : c.messages with
      | nil =>
        rw [hm] at h
        exact absurd h (by simp)
      | cons m ms =>
        rw [hm] at h
        cases har : appendText tid s rest with
        | none => rw [har] at h; exact absurd h (by simp)
        | some r' =>
          rw [har] at h
          injection h with h
          rw [← h]
          exact .cons ⟨rfl, fun hne => absurd hc hne⟩
            (appendText_offTarget tid s rest r' har)
    · rw [if_neg hc] at h
      cases har : appendText tid s rest with
      | none => rw [har] at h; exact absurd h (by simp)
      | some r' =>
        rw [har] at h
        injection h with h
        rw [← h]
        exact .cons ⟨rfl, fun _ => rfl⟩ (appendText_offTarget tid s rest r' har)

theorem setSrcs_offTarget (tid : Nat) (l : List Citation) (chats : List Chat) :
    List.Forall₂ (offTarget tid) chats (setSrcs tid l chats) := by
  unfold setSrcs
  apply offTarget_map
  · intro c
    by_cases hc : c.id = tid
    · cases hm : c.messages <;> simp [hc, hm]
    · simp [hc]
  · intro c hc
    simp [hc]

theorem appendMsgs_offTarget (tid : Nat) (ms : List Message) (chats : List Chat) :
    List.Forall₂ (offTarget tid) chats (appendMsgs tid ms chats) := by
  unfold appendMsgs
  apply offTarget_map
  · intro c
    by_cases hc : c.id = tid <;> simp [hc]
  · intro c hc
    simp [hc]

theorem processFrame_offTarget (parse : String → Option Payload) (tid : Nat)
    (chats r : List Chat) (f : String) (h : processFrame parse tid chats f = some r) :
    List.Forall₂ (offTarget tid) chats r := by
  unfold processFrame at h
  cases hk : frameClass parse f with
  | fragment s =>
    rw [hk] at h
    exact appendText_offTarget tid s chats r h
  | citations l =>
    rw [hk] at h
    injection h with h
    rw [← h]
    exact setSrcs_offTarget tid l chats
  | ignore =>
    rw [hk] at h
    injection h with h
    rw [← h]
    exact offTarget_refl tid chats

theorem processFrames_offTarget (parse : String → Option Payload) (tid : Nat) :
    ∀ (frames : List String) (chats : List Chat),
    List.Forall₂ (offTarget tid) chats (processFrames parse tid frames chats).1
  | [], chats => offTarget_refl tid chats
  | f :: rest, chats => by
    cases hf : processFrame parse tid chats f with
    | none =>
      rw [processFrames_cons, hf, option_elim_none]
      exact offTarget_refl tid chats
    | some r =>
      rw [processFrames_cons, hf, option_elim_some]
      exact offTarget_trans tid (processFrame_offTarget parse tid chats r f hf)
        (processFrames_offTarget parse tid rest r)

theorem readLoop_offTarget (parse : String → Option Payload) (tid : Nat) :
    ∀ (chunks : List String) (buffer : String) (chats : List Chat),
    List.Forall₂ (offTarget tid) chats (readLoop parse tid chunks buffer chats).2.1
  | [], _, chats => offTarget_refl tid chats
  | chunk :: rest, buffer, chats => by
    cases hr : processFrames parse tid (splitFramesS (buffer ++ chunk)).dropLast chats with
    | mk s1 crashed =>
      have hs1 : List.Forall₂ (offTarget tid) chats s1 := by
        have h := processFrames_offTarget parse tid
          (splitFramesS (buffer ++ chunk)).dropLast chats
        rw [hr] at h
        exact h
      cases crashed with
      | true =>
        have hstep : readLoop parse tid (chunk :: rest) buffer chats =
            ((splitFramesS (buffer ++ chunk)).getLastD "", s1, true) := by
          rw [readLoop_cons, hr]
          rfl
        rw [hstep]
        exact hs1
      | false =>
        have hstep : readLoop parse tid (chunk :: rest) buffer chats =
            readLoop parse tid rest ((splitFramesS (buffer ++ chunk)).getLastD "") s1 := by
          rw [readLoop_cons, hr]
          rfl
        rw [hstep]
        exact offTarget_trans tid hs1
          (readLoop_offTarget parse tid rest ((splitFramesS (buffer ++ chunk)).getLastD "") s1)

theorem handleSend_offTarget (parse : String → Option Payload) (store : List Chat)
    (tid : Nat) (input : String) (outcome : StreamOutcome) :
    List.Forall₂ (offTarget tid) store (handleSend parse store tid input outcome) := by
  by_cases hq : jsTrim input = ""
  · unfold handleSend
    rw [if_pos hq]
    exact offTarget_refl tid store
  · have h1 := appendMsgs_offTarget tid [⟨jsTrim input, true, none⟩, ⟨"", false, none⟩] store
    cases outcome with
    | ok chunks =>
      have h2 := readLoop_offTarget parse tid chunks ""
        (appendMsgs tid [⟨jsTrim input, true, none⟩, ⟨"", false, none⟩] store)
      cases hcr : (readLoop parse tid chunks ""
          (appendMsgs tid [⟨jsTrim input, true, none⟩, ⟨"", false, none⟩] store)).2.2 with
      | true =>
        have hsend : handleSend parse store tid input (.ok chunks) =
            appendMsgs tid [warningMsg]
              (readLoop parse tid chunks ""
                (appendMsgs tid [⟨jsTrim input, true, none⟩, ⟨"", false, none⟩] store)).2.1 := by
          unfold handleSend
          rw [if_neg hq]
          show (if (readLoop parse tid chunks "" _).2.2 = true then _ else _) = _
          rw [hcr]
          rfl
        rw [hsend]
        exact offTarget_trans tid (offTarget_trans tid h1 h2)
          (appendMsgs_offTarget tid [warningMsg] _)
      | false =>
        have hsend : handleSend parse store tid input (.ok chunks) =
            (readLoop parse tid chunks ""
              (appendMsgs tid [⟨jsTrim input, true, none⟩, ⟨"", false, none⟩] store)).2.1 := by
          unfold handleSend
          rw [if_neg hq]
          show (if (readLoop parse tid chunks "" _).2.2 = true then _ else _) = _
          rw [hcr]
          rfl
        rw [hsend]
        exact offTarget_trans tid h1 h2
    | fail chunks =>
      have h2 := readLoop_offTarget parse tid chunks ""
        (appendMsgs tid [⟨jsTrim input, true, none⟩, ⟨"", false, none⟩] store)
      have hsend : handleSend parse store tid input (.fail chunks) =
          appendMsgs tid [warningMsg]
            (readLoop parse tid chunks ""
              (appendMsgs tid [⟨jsTrim input, true, none⟩, ⟨"", false, none⟩] store)).2.1 := by
        unfold handleSend
        rw [if_neg hq]
      rw [hsend]
      exact offTarget_trans tid (offTarget_trans tid h1 h2)
        (appendMsgs_offTarget tid [warningMsg] _)

/-! ## The final shape of the target conversation after a stream -/

theorem find?_appendMsgs (tid : Nat) (ms : List Message) (chats : List Chat) :
    (appendMsgs tid ms chats).find? (fun c => c.id == tid) =
      (chats.find? (fun c => c.id == tid)).map
        (fun c => if c.id = tid then ⟨c.id, c.title, c.preview, c.messages ++ ms⟩ else c) := by
  unfold appendMsgs
  rw [List.find?_map]
  have hp : ((fun c : Chat => c.id == tid) ∘
      (fun c => if c.id = tid then ⟨c.id, c.title, c.preview, c.messages ++ ms⟩ else c))
      = (fun c : Chat => c.id == tid) := by
    funext c
    by_cases hc : c.id = tid <;> simp [Function.comp, hc]
  rw [hp]

theorem appendMsgs_targets_nonempty (tid : Nat) (m0 : Message) (ms : List Message)
    (chats : List Chat) :
    ∀ c ∈ appendMsgs tid (m0 :: ms) chats, c.id = tid → c.messages ≠ [] := by
  intro c hc hcid
  unfold appendMsgs at hc
  rcases List.mem_map.1 hc with ⟨c₀, _, rfl⟩
  by_cases h : c₀.id = tid
  · rw [if_pos h]
    simp
  · rw [if_neg h] at hcid
    exact absurd hcid h

theorem handleSend_stream_spec (parse : String → Option Payload) (store : List Chat)
    (tid : Nat) (input : String) (chunks : List String) (c : Chat)
    (hq : jsTrim input ≠ "")
    (hfind : store.find? (fun c' => c'.id == tid) = some c) :
    (handleSend parse store tid input (.ok chunks)).find? (fun c' => c'.id == tid) =
      some ⟨c.id, c.title, c.preview, c.messages ++
        [⟨jsTrim input, true, none⟩,
         applyFrames parse (splitFramesS (concatAll chunks)).dropLast ⟨"", false, none⟩]⟩ ∧
    (handleSend parse store tid input (.fail chunks)).find? (fun c' => c'.id == tid) =
      some ⟨c.id, c.title, c.preview, c.messages ++
        [⟨jsTrim input, true, none⟩,
         applyFrames parse (splitFramesS (concatAll chunks)).dropLast ⟨"", false, none⟩,
         warningMsg]⟩ := by
  have hid : c.id = tid := by simpa using List.find?_some hfind
  have hne1 : ∀ c' ∈ appendMsgs tid [⟨jsTrim input, true, none⟩, ⟨"", false, none⟩] store,
      c'.id = tid → c'.messages ≠ [] :=
    appendMsgs_targets_nonempty tid _ _ store
  have hproc := processFrames_spec parse tid (splitFramesS (concatAll chunks)).dropLast
    (appendMsgs tid [⟨jsTrim input, true, none⟩, ⟨"", false, none⟩] store) hne1
  have hrl := readLoop_spec parse tid chunks ""
    (appendMsgs tid [⟨jsTrim input, true, none⟩, ⟨"", false, none⟩] store) rfl
  rw [show ("" : String) ++ concatAll chunks = concatAll chunks from rfl] at hrl
  have hrl2 : (readLoop parse tid chunks ""
        (appendMsgs tid [⟨jsTrim input, true, none⟩, ⟨"", false, none⟩] store)).2 =
      ((appendMsgs tid [⟨jsTrim input, true, none⟩, ⟨"", false, none⟩] store).map
        (updChat tid (applyFrames parse (splitFramesS (concatAll chunks)).dropLast)),
       false) := by
    rw [hrl.1, hproc]
  have hfind1 : (appendMsgs tid [⟨jsTrim input, true, none⟩, ⟨"", false, none⟩]
        store).find? (fun c' => c'.id == tid) =
      some ⟨c.id, c.title, c.preview,
        c.messages ++ [⟨jsTrim input, true, none⟩, ⟨"", false, none⟩]⟩ := by
    rw [find?_appendMsgs, hfind]
    simp only [Option.map_some']
    rw [if_pos hid]
  have hfind2 : ((appendMsgs tid [⟨jsTrim input, true, none⟩, ⟨"", false, none⟩] store).map
        (updChat tid (applyFrames parse (splitFramesS (concatAll chunks)).dropLast))).find?
        (fun c' => c'.id == tid) =
      some ⟨c.id, c.title, c.preview, c.messages ++
        [⟨jsTrim input, true, none⟩,
         applyFrames parse (splitFramesS (concatAll chunks)).dropLast ⟨"", false, none⟩]⟩ := by
    rw [find?_updChat_map, hfind1]
    show some (updChat tid _ _) = _
    unfold updChat
    rw [if_pos (show (⟨c.id, c.title, c.preview,
      c.messages ++ [⟨jsTrim input, true, none⟩, ⟨"", false, none⟩]⟩ : Chat).id = tid from hid)]
    have hsplit : c.messages ++ [(⟨jsTrim input, true, none⟩ : Message), ⟨"", false, none⟩] =
        (c.messages ++ [⟨jsTrim input, true, none⟩]) ++ [⟨"", false, none⟩] := by
      simp
    rw [hsplit, updateLast_append]
    simp [List.append_assoc]
  constructor
  · have hsend : handleSend parse store tid input (.ok chunks) =
        (readLoop parse tid chunks ""
          (appendMsgs tid [⟨jsTrim input, true, none⟩, ⟨"", false, none⟩] store)).2.1 := by
      unfold handleSend
      rw [if_neg hq]
      show (if (readLoop parse tid chunks "" _).2.2 = true then _ else _) = _
      rw [show (readLoop parse tid chunks ""
        (appendMsgs tid [⟨jsTrim input, true, none⟩, ⟨"", false, none⟩] store)).2.2 = false by
          rw [hrl2]]
      rfl
    rw [hsend, show (readLoop parse tid chunks ""
      (appendMsgs tid [⟨jsTrim input, true, none⟩, ⟨"", false, none⟩] store)).2.1 =
        (appendMsgs tid [⟨jsTrim input, true, none⟩, ⟨"", false, none⟩] store).map
          (updChat tid (applyFrames parse (splitFramesS (concatAll chunks)).dropLast)) by
        rw [hrl2]]
    exact hfind2
  · have hsend : handleSend parse store tid input (.fail chunks) =
        appendMsgs tid [warningMsg]
          ((appendMsgs tid [⟨jsTrim input, true, none⟩, ⟨"", false, none⟩] store).map
            (updChat tid (applyFrames parse (splitFramesS (concatAll chunks)).dropLast))) := by
      unfold handleSend
      rw [if_neg hq]
      show appendMsgs tid [warningMsg] (readLoop parse tid chunks "" _).2.1 = _
      rw [show (readLoop parse tid chunks ""
        (appendMsgs tid [⟨jsTrim input, true, none⟩, ⟨"", false, none⟩] store)).2.1 =
          (appendMsgs tid [⟨jsTrim input, true, none⟩, ⟨"", false, none⟩] store).map
            (updChat tid (applyFrames parse (splitFramesS (concatAll chunks)).dropLast)) by
          rw [hrl2]]
    rw [hsend, find?_appendMsgs, hfind2]
    simp only [Option.map_some']
    rw [if_pos (show (⟨c.id, c.title, c.preview, c.messages ++
      [⟨jsTrim input, true, none⟩,
       applyFrames parse (splitFramesS (concatAll chunks)).dropLast
         ⟨"", false, none⟩]⟩ : Chat).id = tid from hid)]
    simp [List.append_assoc]

/-! ## Claim theorems: C1, C4 -/

/-- C1: every mutation a stream performs — fragment appends, citation merges,
and the failure warning — is keyed to the conversation id the send-time
closures captured (`activeId` is a per-render constant in the source), so for
any outcome every conversation other than the captured target is untouched
(first conjunct), and the mutations land on the captured target in frame
order: its open message's final text is the concatenation of the refined
fragments in arrival order (second conjunct). -/
theorem c1_stream_targets_captured_id (parse : String → Option Payload)
    (store : List Chat) (tid : Nat) (input : String) (outcome : StreamOutcome) :
    List.Forall₂ (offTarget tid) store (handleSend parse store tid input outcome) ∧
    (∀ (chunks : List String) (c : Chat),
      jsTrim input ≠ "" →
      store.find? (fun c' => c'.id == tid) = some c →
      (handleSend parse store tid input (.ok chunks)).find? (fun c' => c'.id == tid) =
        some ⟨c.id, c.title, c.preview, c.messages ++
          [⟨jsTrim input, true, none⟩,
           applyFrames parse (splitFramesS (concatAll chunks)).dropLast ⟨"", false, none⟩]⟩ ∧
      (applyFrames parse (splitFramesS (concatAll chunks)).dropLast
          ⟨"", false, none⟩).text =
        concatAll ((fragmentsOf parse
          ((splitFramesS (concatAll chunks)).dropLast)).map refineLLMText)) := by
  refine ⟨handleSend_offTarget parse store tid input outcome, ?_⟩
  intro chunks c hq hfind
  refine ⟨(handleSend_stream_spec parse store tid input chunks c hq hfind).1, ?_⟩
  exact (applyFrames_text parse (splitFramesS (concatAll chunks)).dropLast
    ⟨"", false, none⟩).1

/-- C1 witness: a one-chat store, a non-blank question, a two-fragment
stream. -/
theorem c1_stream_targets_captured_id_witness :
    jsTrim "q" ≠ "" ∧
    ([(⟨1, "t", "p", []⟩ : Chat), ⟨2, "u", "v", []⟩].find? (fun c' => c'.id == 1) =
      some ⟨1, "t", "p", []⟩) ∧
    (handleSend (fun _ => some ⟨some "Hi", none, none, none, none, none⟩)
        [⟨1, "t", "p", []⟩, ⟨2, "u", "v", []⟩] 1 "q"
        (.ok ["data: x\n\n"])).find? (fun c' => c'.id == 1) =
      some ⟨1, "t", "p", [] ++
        [⟨jsTrim "q", true, none⟩,
         applyFrames (fun _ => some ⟨some "Hi", none, none, none, none, none⟩)
           (splitFramesS (concatAll ["data: x\n\n"])).dropLast ⟨"", false, none⟩]⟩ :=
  ⟨by decide, by decide,
    ((c1_stream_targets_captured_id (fun _ => some ⟨some "Hi", none, none, none, none, none⟩)
      [⟨1, "t", "p", []⟩, ⟨2, "u", "v", []⟩] 1 "q" (.ok ["data: x\n\n"])).2
      ["data: x\n\n"] ⟨1, "t", "p", []⟩ (by decide) (by decide)).1⟩

/-- C4: if the transport fails after some fragments were applied, the partial
answer text (the refined fragments concatenated in arrival order) is kept
unchanged and a single new warning bubble is appended, so the target
conversation ends with the user question, the partial assistant answer, and
the warning message. -/
theorem c4_partial_answer_preserved (parse : String → Option Payload)
    (store : List Chat) (tid : Nat) (input : String) (chunks : List String) (c : Chat)
    (hq : jsTrim input ≠ "")
    (hfind : store.find? (fun c' => c'.id == tid) = some c) :
    (handleSend parse store tid input (.fail chunks)).find? (fun c' => c'.id == tid) =
      some ⟨c.id, c.title, c.preview, c.messages ++
        [⟨jsTrim input, true, none⟩,
         applyFrames parse (splitFramesS (concatAll chunks)).dropLast ⟨"", false, none⟩,
         warningMsg]⟩ ∧
    (applyFrames parse (splitFramesS (concatAll chunks)).dropLast ⟨"", false, none⟩).text =
      concatAll ((fragmentsOf parse
        ((splitFramesS (concatAll chunks)).dropLast)).map refineLLMText) ∧
    (applyFrames parse (splitFramesS (concatAll chunks)).dropLast
      ⟨"", false, none⟩).isUser = false := by
  refine ⟨(handleSend_stream_spec parse store tid input chunks c hq hfind).2, ?_, ?_⟩
  · exact (applyFrames_text parse (splitFramesS (concatAll chunks)).dropLast
      ⟨"", false, none⟩).1
  · exact (applyFrames_text parse (splitFramesS (concatAll chunks)).dropLast
      ⟨"", false, none⟩).2

/-- C4 witness: a transport failure after two fragments were received. -/
theorem c4_partial_answer_preserved_witness :
    jsTrim "q" ≠ "" ∧
    ([(⟨1, "t", "p", []⟩ : Chat)].find? (fun c' => c'.id == 1) = some ⟨1, "t", "p", []⟩) ∧
    (handleSend (fun _ => some ⟨some "Hi", none, none, none, none, none⟩)
        [⟨1, "t", "p", []⟩] 1 "q"
        (.fail ["data: x\n\ndata: y\n\n"])).find? (fun c' => c'.id == 1) =
      some ⟨1, "t", "p", [] ++
        [⟨jsTrim "q", true, none⟩,
         applyFrames (fun _ => some ⟨some "Hi", none, none, none, none, none⟩)
           (splitFramesS (concatAll ["data: x\n\ndata: y\n\n"])).dropLast ⟨"", false, none⟩,
         warningMsg]⟩ :=
  ⟨by decide, by decide,
    (c4_partial_answer_preserved (fun _ => some ⟨some "Hi", none, none, none, none, none⟩)
      [⟨1, "t", "p", []⟩] 1 "q" ["data: x\n\ndata: y\n\n"] ⟨1, "t", "p", []⟩
      (by decide) (by decide)).1⟩

/-! ## Conversation-id allocation (C9) -/

theorem le_maxId : ∀ (chats : List Chat), ∀ c ∈ chats, c.id ≤ maxId chats
  | c₀ :: rest, c, hc => by
    rcases List.mem_cons.1 hc with rfl | hc
    · exact Nat.le_max_left _ _
    · exact Nat.le_trans (le_maxId rest c hc) (Nat.le_max_right _ _)

theorem maxId_cons (c : Chat) (chats : List Chat) :
    maxId (c :: chats) = Nat.max c.id (maxId chats) := rfl

theorem forall₂_map_id (tid : Nat) : ∀ {a b : List Chat},
    List.Forall₂ (offTarget tid) a b → b.map (·.id) = a.map (·.id) := by
  intro a b h
  induction h with
  | nil => rfl
  | cons hR _ ih => simp [ih, hR.1]

theorem maxId_handleSend (parse : String → Option Payload) (store : List Chat)
    (tid : Nat) (input : String) (outcome : StreamOutcome) :
    maxId (handleSend parse store tid input outcome) = maxId store := by
  unfold maxId
  rw [forall₂_map_id tid (handleSend_offTarget parse store tid input outcome)]

theorem handleSend_ne_nil (parse : String → Option Payload) (store : List Chat)
    (tid : Nat) (input : String) (outcome : StreamOutcome) (h : store ≠ []) :
    handleSend parse store tid input outcome ≠ [] := by
  have hlen := (handleSend_offTarget parse store tid input outcome).length_eq
  intro hc
  rw [hc] at hlen
  simp only [List.length_nil, List.length_eq_zero] at hlen
  exact h hlen

theorem runIssued_foldl_inv : ∀ (acts : List UserAction) (p : AppState × List Nat),
    (∀ j ∈ p.2, j ≤ maxId p.1.chats) → p.1.chats ≠ [] →
    (∀ j ∈ (acts.foldl
      (fun p a =>
        match a with
        | .newChat => (stepApp p.1 .newChat, (handleNewChat p.1.chats).1 :: p.2)
        | _ => (stepApp p.1 a, p.2)) p).2,
      j ≤ maxId (acts.foldl
        (fun p a =>
          match a with
          | .newChat => (stepApp p.1 .newChat, (handleNewChat p.1.chats).1 :: p.2)
          | _ => (stepApp p.1 a, p.2)) p).1.chats) ∧
    (acts.foldl
      (fun p a =>
        match a with
        | .newChat => (stepApp p.1 .newChat, (handleNewChat p.1.chats).1 :: p.2)
        | _ => (stepApp p.1 a, p.2)) p).1.chats ≠ []
  | [], p, hj, hne => ⟨hj, hne⟩
  | a :: acts, p, hj, hne => by
    rw [List.foldl_cons]
    cases a with
    | newChat =>
      refine runIssued_foldl_inv acts _ ?_ ?_
      · intro j hjmem
        show j ≤ maxId ((handleNewChat p.1.chats).2)
        have hmax : maxId ((handleNewChat p.1.chats).2) = maxId p.1.chats + 1 := by
          show maxId (⟨maxId p.1.chats + 1, _, _, _⟩ :: p.1.chats) = _
          rw [maxId_cons]
          exact Nat.max_eq_left (Nat.le_succ _)
        rw [hmax]
        rcases List.mem_cons.1 hjmem with rfl | hjmem
        · exact Nat.le_refl _
        · exact Nat.le_succ_of_le (hj j hjmem)
      · show (⟨_, _, _, _⟩ :: p.1.chats) ≠ []
        simp
    | ask parse input outcome =>
      refine runIssued_foldl_inv acts _ ?_ ?_
      · intro j hjmem
        show j ≤ maxId (handleSend parse p.1.chats p.1.activeId input outcome)
        rw [maxId_handleSend]
        exact hj j hjmem
      · exact handleSend_ne_nil parse p.1.chats p.1.activeId input outcome hne
    | select i =>
      exact runIssued_foldl_inv acts _ hj hne

theorem runIssued_inv (acts : List UserAction) :
    (∀ j ∈ (runIssued acts).2, j ≤ maxId (runIssued acts).1.chats) ∧
    (runIssued acts).1.chats ≠ [] := by
  unfold runIssued
  exact runIssued_foldl_inv acts (initState, [1]) (by decide) (by decide)

/-! ## Claim theorem: C9 -/

/-- C9: after any sequence of user actions (new chat, ask — with any stream
behaviour — and select; the source has no conversation-removal action, so
every issued id is still present), `handleNewChat` allocates an id strictly
greater than every id ever issued and different from every current
conversation's id, prepends exactly one new empty conversation leaving the
existing list untouched in order, and makes the new id active. -/
theorem c9_new_chat_fresh_id (acts : List UserAction) :
    (∀ j ∈ (runIssued acts).2, j < (handleNewChat (runIssued acts).1.chats).1) ∧
    (∀ c ∈ (runIssued acts).1.chats, c.id < (handleNewChat (runIssued acts).1.chats).1) ∧
    (handleNewChat (runIssued acts).1.chats).2 =
      ⟨(handleNewChat (runIssued acts).1.chats).1,
       "Chat " ++ toString (handleNewChat (runIssued acts).1.chats).1,
       "New chat started.", []⟩ :: (runIssued acts).1.chats ∧
    stepApp (runIssued acts).1 .newChat =
      ⟨(handleNewChat (runIssued acts).1.chats).2,
       (handleNewChat (runIssued acts).1.chats).1⟩ := by
  obtain ⟨hj, _⟩ := runIssued_inv acts
  refine ⟨?_, ?_, rfl, rfl⟩
  · intro j hjmem
    exact Nat.lt_succ_of_le (hj j hjmem)
  · intro c hc
    exact Nat.lt_succ_of_le (le_maxId _ c hc)

end HexAgent
